import Mathlib

/-!
Verification of the block-partitioned sandwich-estimator benchmarks.

The development shallowly embeds the repository's aggregation engine:
`ndarray` matrices become `RMatrix` (explicit extents, entries in `ℤ` so
that summation order is irrelevant, as the spec's equivalence statements
assume exact arithmetic), the per-block index derivation becomes
`blockIndices`, and each concurrency variant's merge discipline becomes a
fold over an explicit schedule (a permutation parameter standing for the
nondeterministic interleaving the thread pools produce).
-/

namespace SweMockup

/-- Dense matrix with explicit extents, mirroring `ndarray::Array2<f64>`
over exact arithmetic (`ℤ`).  Entries outside `rows × cols` are never read
by the embedded code paths. -/
structure RMatrix where
  rows : ℕ
  cols : ℕ
  entry : ℕ → ℕ → ℤ

/-- Embeds `m.select(Axis(1), &idxs)`: keep the columns listed in `idxs`,
in order. -/
def select1 (m : RMatrix) (idxs : List ℕ) : RMatrix :=
  ⟨m.rows, idxs.length, fun p j => m.entry p (idxs.getD j 0)⟩

/-- Embeds `m.select(Axis(0), &idxs)`: keep the rows listed in `idxs`,
in order. -/
def select0 (m : RMatrix) (idxs : List ℕ) : RMatrix :=
  ⟨idxs.length, m.cols, fun j f => m.entry (idxs.getD j 0) f⟩

/-- Embeds the dense product `a.dot(&b)`. -/
def matDot (a b : RMatrix) : RMatrix :=
  ⟨a.rows, b.cols, fun p f =>
    ((List.range a.cols).map (fun k => a.entry p k * b.entry k f)).sum⟩

/-- Embeds the block-index derivation of all three binaries:
`block_ids.indexed_iter().filter_map(|(index, &item)| if item == block { Some(index) } else { None })`.
The result lists, in increasing order, the observation positions whose
label equals `b`. -/
def blockIndices (bids : List ℕ) (b : ℕ) : List ℕ :=
  (List.range bids.length).filter (fun i => bids.getD i 0 == b)

/-- Embeds the half-sandwich kernel of all three binaries:
`x_pinv.select(Axis(1), &block_indices).dot(&resid.select(Axis(0), &block_indices))`. -/
def halfSandwich (xp rs : RMatrix) (idxs : List ℕ) : RMatrix :=
  matDot (select1 xp idxs) (select0 rs idxs)

/-- The inputs one repetition of the aggregation engine consumes: the block
count, the block-label vector, the `N × F` residual matrix and the `P × N`
pseudo-inverse, as produced by `MockData` or by the inline generation of
`benchmark.rs` / `benchmark-single.rs`. -/
structure Dataset where
  nBlocks : ℕ
  blockIds : List ℕ
  resid : RMatrix
  xPinv : RMatrix

/-- Number of features: the residual matrix's column count. -/
def Dataset.nFeat (d : Dataset) : ℕ := d.resid.cols

/-- The half-sandwich the binaries compute for the block labelled `b`. -/
def Dataset.hs (d : Dataset) (b : ℕ) : RMatrix :=
  halfSandwich d.xPinv d.resid (blockIndices d.blockIds b)

/-- Entry `(p, q)` of the rank-one update `v · vᵀ` that the block labelled
`b` contributes to feature slice `f`  (`half_sandwich.dot(&half_sandwich.t())`
for column `f`). -/
def blockContrib (d : Dataset) (b p q f : ℕ) : ℤ :=
  (d.hs b).entry p f * (d.hs b).entry q f

/-- The `P × P × F` accumulator, as a total function; entries outside the
allocated extents stay `0` throughout. -/
def CovTensor : Type := ℕ → ℕ → ℕ → ℤ

/-- The all-zero accumulator, `Array::zeros((n_pred, n_pred, n_feat))`. -/
def zeroT : CovTensor := fun _ _ _ => 0

/-- Embeds one block's accumulation step, shared verbatim by
`benchmark-multi.rs` and `benchmark-single.rs`: the feature slices of the
accumulator (axis 2, extent `nFeat`) are zipped with the half-sandwich's
columns and each slice receives its feature's outer product. -/
def addBlockContrib (d : Dataset) (c : CovTensor) (b : ℕ) : CovTensor :=
  fun p q f => if f < d.nFeat then c p q f + blockContrib d b p q f else c p q f

/-- Embeds one repetition of `benchmark-multi.rs` (the per-repetition
local-accumulation variant): a fresh zero accumulator receives the blocks
`0, 1, …, n_blocks` in the sequential order of
`std::ops::Range { start: 0, end: n_blocks + 1 }`. -/
def repLocal (d : Dataset) : CovTensor :=
  (List.range (d.nBlocks + 1)).foldl (addBlockContrib d) zeroT

/-- Embeds the accumulation phase of `benchmark-single.rs`: blocks are
dispatched by the outer pool in some schedule `bs`, but the
condition-variable gates serialise their accumulation steps, so the result
is a sequential fold over `bs`; the gate protocol guarantees `bs` is a
permutation of `0 … n_blocks`. -/
def condvarPass (d : Dataset) (bs : List ℕ) (c : CovTensor) : CovTensor :=
  bs.foldl (addBlockContrib d) c

/-- Embeds `cov_b_condvar.mutex.lock().unwrap().cov_b.fill(0.)`: the reset
at the start of each repetition of `benchmark-single.rs`. -/
def resetT (_c : CovTensor) : CovTensor := fun _ _ _ => 0

/-- Embeds the repetition loop of `benchmark-single.rs`: each repetition
first resets the accumulator to zero, then runs one gated pass. -/
def condvarReps (d : Dataset) (bs : List ℕ) : ℕ → CovTensor
  | 0 => zeroT
  | r + 1 => condvarPass d bs (resetT (condvarReps d bs r))

/-- One message of the channel variant (`benchmark.rs`): the `P × P` outer
product of feature `f` of block `b`'s half-sandwich, paired with the
feature index, as sent by `tx.send((half_sandwich.dot(&half_sandwich.t()), feat))`. -/
def featUpdate (d : Dataset) (b f : ℕ) : (ℕ → ℕ → ℤ) × ℕ :=
  (fun p q => (d.hs b).entry p f * (d.hs b).entry q f, f)

/-- Embeds the aggregator thread's handling of one received message:
`cov_b.slice_mut(s![.., .., feat]) += &update`. -/
def applyUpdate (c : CovTensor) (u : (ℕ → ℕ → ℤ) × ℕ) : CovTensor :=
  fun p q f => if f = u.2 then c p q f + u.1 p q else c p q f

/-- The multiset of `(block, feature)` messages one pass of `benchmark.rs`
produces: every block label `0 … n_blocks` crossed with every feature
`0 … n_feat - 1` (the `enumerate()` over the half-sandwich's columns). -/
def sentUpdates (d : Dataset) : List (ℕ × ℕ) :=
  (List.range (d.nBlocks + 1)).flatMap
    (fun b => (List.range d.nFeat).map (fun f => (b, f)))

/-- Embeds one pass of the channel variant: the single aggregator thread
drains the channel, folding the messages into the accumulator in arrival
order `ord`; the channel delivers each sent message exactly once, so `ord`
is a permutation of `sentUpdates`. -/
def channelPass (d : Dataset) (ord : List (ℕ × ℕ)) (c : CovTensor) : CovTensor :=
  (ord.map (fun u => featUpdate d u.1 u.2)).foldl applyUpdate c

/-- Embeds the repetition loop of `benchmark.rs`: `cov_b` is zero-initialised
once before the loop and each repetition adds a full pass of messages into
the existing accumulator (the source contains no per-repetition reset). -/
def channelReps (d : Dataset) (ord : List (ℕ × ℕ)) : ℕ → CovTensor
  | 0 => zeroT
  | r + 1 => channelPass d ord (channelReps d ord r)

/-- Modelled from the spec: the naive single-threaded reference of §8
("block-by-block, feature-by-feature accumulation"), which is not part of
the repository's sources.  Per §3 and §9 the spec's blocks are the non-zero
labels `1 … B`, label 0 being excluded from all blocks. -/
def referenceSpec (d : Dataset) : CovTensor :=
  fun p q f =>
    if f < d.nFeat then
      ((List.range d.nBlocks).map (fun i => blockContrib d (i + 1) p q f)).sum
    else 0

/-- The naive block-by-block sum that the sources actually refine: the
spec's reference extended with the label-0 remainder group, i.e. the sum
over the labels `0 … n_blocks` the binaries iterate. -/
def referenceAll (d : Dataset) : CovTensor :=
  fun p q f =>
    if f < d.nFeat then
      ((List.range (d.nBlocks + 1)).map (fun b => blockContrib d b p q f)).sum
    else 0

/-- Embeds `BlockSizes` of `src/lib.rs`: the two sizes are `NonZeroUsize`
in the source; the embedding carries them as plain naturals, the
zero-exclusion living in `BlockSizes.new_from_usize` exactly as in the
source. -/
structure BlockSizes where
  min_size : ℕ
  max_size_inclusive : ℕ

/-- Embeds `BlockSizes::new`: `Some` when `max_size_inclusive >= min_size`,
`None` otherwise. -/
def BlockSizes.new (mm : ℕ × ℕ) : Option BlockSizes :=
  if mm.2 ≥ mm.1 then some ⟨mm.1, mm.2⟩ else none

/-- Embeds `BlockSizes::new_from_usize`: `NonZeroUsize::new` of each
component (`None` on zero), then delegation to `BlockSizes::new`. -/
def BlockSizes.new_from_usize (mm : ℕ × ℕ) : Option BlockSizes :=
  if mm.1 = 0 then none
  else if mm.2 = 0 then none
  else BlockSizes.new mm

/-- Embeds `let ncpus_outer = if ncpus < 5 { 1 } else { 2 };` of
`benchmark.rs` / `benchmark-single.rs`. -/
def ncpusOuterOf (ncpus : ℕ) : ℕ := if ncpus < 5 then 1 else 2

/-- Embeds `let ncpus_inner = std::cmp::max(1, ncpus - ncpus_outer);`
(`usize` subtraction saturates at 0 exactly like `ℕ` subtraction here,
since `ncpus_outer ≤ 2`). -/
def ncpusInnerOf (ncpus : ℕ) : ℕ := max 1 (ncpus - ncpusOuterOf ncpus)

/-- Division as Rust evaluates it on `usize`: dividing by zero panics, so
the embedding returns `none` there (`some (a / b)` otherwise). -/
def checkedDiv (a b : ℕ) : Option ℕ :=
  if b = 0 then none else some (a / b)

/-- Embeds the argument of `with_min_len` in the channel variant's inner
loop: `half_sandwich.len_of(Axis(1)) / (ncpus_inner - 1)`; `none` means the
program panics before sending any contribution. -/
def innerMinLen (xp rs : RMatrix) (idxs : List ℕ) (ncpus : ℕ) : Option ℕ :=
  checkedDiv (halfSandwich xp rs idxs).cols (ncpusInnerOf ncpus - 1)

/-- Phase of one outer-pool task (one block) of `benchmark-single.rs`: a
task is `idle` until it acquires the outer gate, `computing` while it holds
its half-sandwich and waits for the inner pool, `accumulating` while its
inner-pool body runs, and `finished` once that body has released both
gates.  The task's half-sandwich matrix is live exactly during `computing`
and `accumulating`. -/
inductive Phase where
  | idle
  | computing
  | accumulating
  | finished

/-- State of the condition-variable-gated variant: the two counters the
mutex of `CovBMutexInner` protects, plus the phase of every outer-pool
task. -/
structure GateState where
  outer_pool_reserved : ℕ
  inner_pool_blocks : ℕ
  tasks : List Phase

/-- True while a task holds a live half-sandwich (it is mid-computation). -/
def Phase.isMid : Phase → Bool
  | .computing => true
  | .accumulating => true
  | _ => false

/-- Number of concurrently live half-sandwich matrices: the tasks that are
mid-computation. -/
def liveHalfSandwiches (s : GateState) : ℕ :=
  (s.tasks.filter Phase.isMid).length

/-- Step relation of the gate protocol of `benchmark-single.rs`.  Each
constructor is one mutex-protected critical section of the source;
the condition-variable wait loops appear as guards, since a task that
cannot pass the guard stays blocked and takes no step. -/
inductive GateStep (ncpusOuter : ℕ) : GateState → GateState → Prop
  | acquire (r ib : ℕ) (l₁ l₂ : List Phase) (hgate : r < ncpusOuter) :
      GateStep ncpusOuter ⟨r, ib, l₁ ++ .idle :: l₂⟩
        ⟨r + 1, ib, l₁ ++ .computing :: l₂⟩
  | enterInner (r : ℕ) (l₁ l₂ : List Phase) :
      GateStep ncpusOuter ⟨r, 0, l₁ ++ .computing :: l₂⟩
        ⟨r, 1, l₁ ++ .accumulating :: l₂⟩
  | finish (r ib : ℕ) (l₁ l₂ : List Phase) :
      GateStep ncpusOuter ⟨r, ib, l₁ ++ .accumulating :: l₂⟩
        ⟨r - 1, ib - 1, l₁ ++ .finished :: l₂⟩

/-- States the gated computation can reach: initially both counters are
zero (`CovBMutexInner::zeros`) and every block's task is idle. -/
inductive GateReachable (ncpusOuter n : ℕ) : GateState → Prop
  | init : GateReachable ncpusOuter n ⟨0, 0, List.replicate n .idle⟩
  | step {s t : GateState} : GateReachable ncpusOuter n s →
      GateStep ncpusOuter s t → GateReachable ncpusOuter n t

/-- Embeds `block_ids.slice_mut(s![block_start..block_end]).fill(block_id)`
from `MockData::from_params`. -/
def fillRange (l : List ℕ) (lo hi v : ℕ) : List ℕ :=
  (List.range l.length).map (fun i => if lo ≤ i ∧ i < hi then v else l.getD i 0)

/-- Embeds the block-id assignment loop of `MockData::from_params`.  The
random draws of `Uniform::new_inclusive(min_size, max_size)` enter as the
oracle `sample`; state is `(block_ids, block_id, block_start)` and the
`k`-th draw is `sample k`.  The loop runs while
`block_start + sample k ≤ n_obs`; each draw is at least `min_size ≥ 1`, so
at most `nObs` iterations happen and the fuel `nObs + 1` is never
exhausted on inputs the source can see. -/
def assignLoop (sample : ℕ → ℕ) (nObs : ℕ) :
    ℕ → List ℕ → ℕ → ℕ → ℕ → List ℕ × ℕ
  | 0, ids, bid, _, _ => (ids, bid)
  | fuel + 1, ids, bid, start, k =>
      if start + sample k ≤ nObs then
        assignLoop sample nObs fuel
          (fillRange ids start (start + sample k) (bid + 1))
          (bid + 1) (start + sample k) (k + 1)
      else (ids, bid)

/-- Embeds `MockData::from_params` (the parts the claim is about): the
block-id vector starts as `Array::zeros(n_obs)`, the assignment loop runs,
the ids are shuffled (`sample_axis_using` without replacement, entering as
the oracle `perm`), and `NonZeroUsize::new(n_blocks).unwrap()` panics —
`none` — exactly when the loop assigned no block. -/
def fromParams (sample perm : ℕ → ℕ) (nObs : ℕ) : Option (ℕ × List ℕ) :=
  let r := assignLoop sample nObs (nObs + 1) (List.replicate nObs 0) 0 0 0
  let ids := (List.range nObs).map (fun i => r.1.getD (perm i) 0)
  if r.2 = 0 then none else some (r.2, ids)

/-- Concrete dataset with one real block and a non-empty label-0 remainder:
two observations, labels `[1, 0]`, one feature, one predictor, all matrix
entries `1`. -/
def dEx1 : Dataset :=
  { nBlocks := 1
    blockIds := [1, 0]
    resid := ⟨2, 1, fun _ _ => 1⟩
    xPinv := ⟨1, 2, fun _ _ => 1⟩ }

/-- Concrete dataset with block count `B = 0`: the single observation
carries the remainder label 0, and every matrix entry is `1`. -/
def dB0 : Dataset :=
  { nBlocks := 0
    blockIds := [0]
    resid := ⟨1, 1, fun _ _ => 1⟩
    xPinv := ⟨1, 1, fun _ _ => 1⟩ }

/-- Concrete `1 × 2` pseudo-inverse, all entries `1`. -/
def xpEx : RMatrix := ⟨1, 2, fun _ _ => 1⟩

/-- Concrete `2 × 1` residual matrix, all entries `1`. -/
def rsEx : RMatrix := ⟨2, 1, fun _ _ => 1⟩

lemma map_range_length_getD (l : List ℕ) (g : ℕ → ℤ) :
    (List.range l.length).map (fun k => g (l.getD k 0)) = l.map g := by
  induction l with
  | nil => simp
  | cons a t ih =>
    rw [List.length_cons, List.range_succ_eq_map, List.map_cons, List.map_map]
    simp only [Function.comp_def, List.getD_cons_zero, List.getD_cons_succ]
    rw [ih, List.map_cons]

lemma halfSandwich_entry (xp rs : RMatrix) (idxs : List ℕ) (p f : ℕ) :
    (halfSandwich xp rs idxs).entry p f
      = (idxs.map (fun i => xp.entry p i * rs.entry i f)).sum := by
  show ((List.range idxs.length).map
      (fun k => xp.entry p (idxs.getD k 0) * rs.entry (idxs.getD k 0) f)).sum
    = (idxs.map (fun i => xp.entry p i * rs.entry i f)).sum
  rw [map_range_length_getD idxs (fun i => xp.entry p i * rs.entry i f)]

lemma mem_blockIndices (bids : List ℕ) (b i : ℕ) :
    i ∈ blockIndices bids b ↔ i < bids.length ∧ bids.getD i 0 = b := by
  simp [blockIndices, List.mem_filter, List.mem_range]

lemma foldl_addBlockContrib (d : Dataset) (bs : List ℕ) (c : CovTensor) (p q f : ℕ) :
    bs.foldl (addBlockContrib d) c p q f
      = c p q f
        + if f < d.nFeat then (bs.map (fun b => blockContrib d b p q f)).sum else 0 := by
  induction bs generalizing c with
  | nil => simp
  | cons b t ih =>
    rw [List.foldl_cons, ih, List.map_cons, List.sum_cons]
    unfold addBlockContrib
    by_cases hf : f < d.nFeat <;> simp [hf] <;> ring

lemma foldl_applyUpdate (us : List ((ℕ → ℕ → ℤ) × ℕ)) (c : CovTensor) (p q f : ℕ) :
    us.foldl applyUpdate c p q f
      = c p q f + (us.map (fun u => if f = u.2 then u.1 p q else 0)).sum := by
  induction us generalizing c with
  | nil => simp
  | cons u t ih =>
    rw [List.foldl_cons, ih, List.map_cons, List.sum_cons]
    unfold applyUpdate
    by_cases hf : f = u.2 <;> simp [hf] <;> ring

lemma sum_map_range_ite (g : ℕ → ℤ) (f n : ℕ) :
    ((List.range n).map (fun j => if f = j then g j else 0)).sum
      = if f < n then g f else 0 := by
  induction n with
  | zero => simp
  | succ m ih =>
    rw [List.range_succ, List.map_append, List.sum_append, ih]
    rcases Nat.lt_trichotomy f m with h | h | h
    · simp [h, Nat.lt_succ_of_lt h, Nat.ne_of_lt h]
    · simp [h, Nat.lt_succ_self]
    · have h1 : ¬ f < m := Nat.not_lt.mpr (Nat.le_of_lt h)
      have h2 : ¬ f < m + 1 := Nat.not_lt.mpr h
      have h3 : f ≠ m := Nat.ne_of_gt h
      simp [h1, h2, h3]

lemma sum_map_flatMap {α β : Type} (l : List α) (g : α → List β) (h : β → ℤ) :
    ((l.flatMap g).map h).sum = (l.map (fun a => ((g a).map h).sum)).sum := by
  induction l with
  | nil => rfl
  | cons a t ih =>
    rw [List.flatMap_cons, List.map_append, List.sum_append, ih, List.map_cons,
      List.sum_cons]

lemma channelPass_entry (d : Dataset) (ord : List (ℕ × ℕ)) (c : CovTensor)
    (hord : ord.Perm (sentUpdates d)) (p q f : ℕ) :
    channelPass d ord c p q f = c p q f + referenceAll d p q f := by
  unfold channelPass
  rw [foldl_applyUpdate, List.map_map]
  have hcomp : ((fun u : (ℕ → ℕ → ℤ) × ℕ => if f = u.2 then u.1 p q else 0)
        ∘ fun u : ℕ × ℕ => featUpdate d u.1 u.2)
      = fun u : ℕ × ℕ => if f = u.2 then blockContrib d u.1 p q u.2 else 0 := rfl
  rw [hcomp]
  have hperm :=
    hord.map (fun u : ℕ × ℕ => if f = u.2 then blockContrib d u.1 p q u.2 else 0)
  rw [hperm.sum_eq]
  unfold sentUpdates
  rw [sum_map_flatMap]
  have hinner : ∀ b : ℕ,
      (((List.range d.nFeat).map (fun f' => (b, f'))).map
        (fun u : ℕ × ℕ => if f = u.2 then blockContrib d u.1 p q u.2 else 0)).sum
      = if f < d.nFeat then blockContrib d b p q f else 0 := by
    intro b
    rw [List.map_map]
    have := sum_map_range_ite (fun j => blockContrib d b p q j) f d.nFeat
    simpa [Function.comp_def] using this
  rw [List.map_congr_left (fun b _ => hinner b)]
  unfold referenceAll
  by_cases hf : f < d.nFeat
  · simp [hf]
  · simp [hf]

lemma repLocal_entry (d : Dataset) (p q f : ℕ) :
    repLocal d p q f = referenceAll d p q f := by
  unfold repLocal referenceAll
  rw [foldl_addBlockContrib]
  by_cases hf : f < d.nFeat
  · simp [hf, zeroT]
  · simp [hf, zeroT]

lemma condvarPass_entry (d : Dataset) (bs : List ℕ) (c : CovTensor)
    (hbs : bs.Perm (List.range (d.nBlocks + 1))) (p q f : ℕ) :
    condvarPass d bs c p q f = c p q f + referenceAll d p q f := by
  unfold condvarPass referenceAll
  rw [foldl_addBlockContrib]
  have := (hbs.map (fun b => blockContrib d b p q f)).sum_eq
  by_cases hf : f < d.nFeat
  · simp only [hf, if_true, this]
  · simp [hf]

lemma channelReps_entry (d : Dataset) (ord : List (ℕ × ℕ)) (r : ℕ)
    (hord : ord.Perm (sentUpdates d)) (p q f : ℕ) :
    channelReps d ord r p q f = (r : ℤ) * referenceAll d p q f := by
  induction r with
  | zero => simp [channelReps, zeroT]
  | succ k ih =>
    rw [show channelReps d ord (k + 1) = channelPass d ord (channelReps d ord k) from rfl]
    rw [channelPass_entry d ord _ hord, ih]
    push_cast
    ring

lemma empty_blockIndices_contrib (d : Dataset) (b p q f : ℕ)
    (hb : blockIndices d.blockIds b = []) : blockContrib d b p q f = 0 := by
  unfold blockContrib Dataset.hs
  rw [halfSandwich_entry, hb]
  simp

/-- C1 (amended): at the end of one repetition of `benchmark-multi.rs`,
entry `(p, q)` of `C[:,:,f]` equals the label-0 remainder group's outer
product plus the sum over the non-zero-labelled blocks `1 … B` of their
outer products — the loop `0 .. n_blocks + 1` includes label 0, so the
label-0 observations are not excluded. -/
theorem repetition_accumulator_invariant (d : Dataset) (p q f : ℕ)
    (hf : f < d.nFeat) :
    repLocal d p q f
      = blockContrib d 0 p q f
        + ((List.range d.nBlocks).map (fun i => blockContrib d (i + 1) p q f)).sum := by
  rw [repLocal_entry]
  unfold referenceAll
  rw [if_pos hf, List.range_succ_eq_map, List.map_cons, List.sum_cons, List.map_map]
  rfl

/-- Witness for C1's theorem at the concrete dataset `dEx1`. -/
theorem repetition_accumulator_invariant_holds :
    repLocal dEx1 0 0 0
      = blockContrib dEx1 0 0 0 0
        + ((List.range dEx1.nBlocks).map (fun i => blockContrib dEx1 (i + 1) 0 0 0)).sum :=
  repetition_accumulator_invariant dEx1 0 0 0 (by decide)

/-- Counterexample to C1 as stated: on `dEx1` (labels `[1, 0]`) the
accumulator differs from the sum over the non-zero labels alone, because
the observation with label 0 contributes. -/
theorem label0_observation_contributes :
    repLocal dEx1 0 0 0
      ≠ ((List.range dEx1.nBlocks).map (fun i => blockContrib dEx1 (i + 1) 0 0 0)).sum := by
  decide

/-- C2 (amended): over exact arithmetic the condition-variable-gated
variant (any serialised block schedule `bs`), the channel-based
single-writer variant (any message arrival order `ord`) and the
per-repetition local-accumulation variant all produce the accumulator of
the naive block-by-block, feature-by-feature reference extended with the
label-0 remainder group (`referenceAll`); they differ from the spec's
reference over blocks `1 … B` exactly by that group's contribution. -/
theorem strategy_equivalence (d : Dataset) (bs : List ℕ) (ord : List (ℕ × ℕ))
    (p q f : ℕ) (hbs : bs.Perm (List.range (d.nBlocks + 1)))
    (hord : ord.Perm (sentUpdates d)) :
    condvarPass d bs zeroT p q f = referenceAll d p q f
    ∧ channelPass d ord zeroT p q f = referenceAll d p q f
    ∧ repLocal d p q f = referenceAll d p q f := by
  refine ⟨?_, ?_, repLocal_entry d p q f⟩
  · rw [condvarPass_entry d bs zeroT hbs]
    simp [zeroT]
  · rw [channelPass_entry d ord zeroT hord]
    simp [zeroT]

/-- Witness for C2's theorem at `dEx1`, with the identity schedules. -/
theorem strategy_equivalence_holds :
    condvarPass dEx1 [0, 1] zeroT 0 0 0 = referenceAll dEx1 0 0 0
    ∧ channelPass dEx1 (sentUpdates dEx1) zeroT 0 0 0 = referenceAll dEx1 0 0 0
    ∧ repLocal dEx1 0 0 0 = referenceAll dEx1 0 0 0 :=
  strategy_equivalence dEx1 [0, 1] (sentUpdates dEx1) 0 0 0 (by decide)
    (List.Perm.refl _)

/-- Counterexample to C2 as stated: on `dEx1` the variants do not match
the spec-modelled naive reference over the non-zero blocks `1 … B`. -/
theorem strategy_reference_mismatch :
    repLocal dEx1 0 0 0 ≠ referenceSpec dEx1 0 0 0 := by
  decide

/-- C3 (confirmed): for every block-label vector, each derived index list
is strictly increasing (ordered, ascending, hence without duplicates —
this covers blocks of size 1 and a single-block dataset), the lists of two
distinct labels are disjoint, and an observation position lies in the list
of some non-zero label exactly when its own label is non-zero. -/
theorem block_index_partition (bids : List ℕ) :
    (∀ b, (blockIndices bids b).Pairwise (· < ·))
    ∧ (∀ b b' i, b ≠ b' → i ∈ blockIndices bids b → i ∉ blockIndices bids b')
    ∧ (∀ i, (∃ b, b ≠ 0 ∧ i ∈ blockIndices bids b)
        ↔ i < bids.length ∧ bids.getD i 0 ≠ 0) := by
  refine ⟨?_, ?_, ?_⟩
  · intro b
    exact (List.pairwise_lt_range bids.length).filter _
  · intro b b' i hbb hb hb'
    rw [mem_blockIndices] at hb hb'
    exact hbb (hb.2 ▸ hb'.2 ▸ rfl)
  · intro i
    constructor
    · rintro ⟨b, hb0, hmem⟩
      rw [mem_blockIndices] at hmem
      exact ⟨hmem.1, hmem.2 ▸ hb0⟩
    · rintro ⟨hlen, hne⟩
      exact ⟨bids.getD i 0, hne, (mem_blockIndices bids _ i).mpr ⟨hlen, rfl⟩⟩

/-- C4 (amended): the half-sandwich kernel returns a `P × F` matrix — `P`
rows from `X⁺`, and as many columns as `R` has features, not `|block|`
columns — whose entry `(p, f)` is the dot product of row `p` of `X⁺`
restricted to the block's observations with column `f` of `R` restricted
to the same observations; as a Lean function of the index set, `R` and
`X⁺` it is pure by construction. -/
theorem half_sandwich_kernel (xp rs : RMatrix) (idxs : List ℕ) :
    (halfSandwich xp rs idxs).rows = xp.rows
    ∧ (halfSandwich xp rs idxs).cols = rs.cols
    ∧ ∀ p f, (halfSandwich xp rs idxs).entry p f
        = (idxs.map (fun i => xp.entry p i * rs.entry i f)).sum :=
  ⟨rfl, rfl, fun p f => halfSandwich_entry xp rs idxs p f⟩

/-- Counterexample to C4 as stated: for a block of two observations over a
single feature, the half-sandwich has one column (the feature count), not
two (the block size). -/
theorem half_sandwich_not_block_width :
    ¬ (halfSandwich xpEx rsEx [0, 1]).cols = ([0, 1] : List ℕ).length := by
  decide

/-- C5 (amended): a block with an empty index set contributes exactly zero
to every entry of `C` (its accumulation step leaves the accumulator
unchanged); but with `B = 0` the repetition's accumulator is not all-zero
in general — the loop still visits label 0, so it equals that single
remainder group's contribution. -/
theorem empty_block_zero_contribution (d : Dataset) (c : CovTensor) (b p q f : ℕ) :
    (blockIndices d.blockIds b = [] →
      blockContrib d b p q f = 0 ∧ addBlockContrib d c b p q f = c p q f)
    ∧ (d.nBlocks = 0 →
      repLocal d p q f = if f < d.nFeat then blockContrib d 0 p q f else 0) := by
  constructor
  · intro hb
    have hz := empty_blockIndices_contrib d b p q f hb
    refine ⟨hz, ?_⟩
    unfold addBlockContrib
    rw [hz]
    by_cases hf : f < d.nFeat
    · simp [hf]
    · simp [hf]
  · intro hB
    rw [repLocal_entry]
    unfold referenceAll
    rw [hB]
    by_cases hf : f < d.nFeat
    · simp [hf, show List.range 1 = [0] from rfl]
    · simp [hf]

/-- Counterexample to C5's `B = 0` clause as stated: on `dB0` (block count
0, one observation with label 0) the repetition's accumulator is not
all-zero. -/
theorem b0_accumulator_nonzero : repLocal dB0 0 0 0 ≠ 0 := by
  decide

/-- C6 (amended): `benchmark-single.rs` resets `C` at the start of each
repetition, so for every `r ≥ 1` each repetition ends with the identical
single-repetition value; `benchmark.rs`, however, zeroes `C` once before
the loop and never resets it, so after `r` repetitions its accumulator is
`r` times the single-repetition value. -/
theorem repetition_reset_behaviour (d : Dataset) (bs : List ℕ)
    (ord : List (ℕ × ℕ)) (r p q f : ℕ)
    (hbs : bs.Perm (List.range (d.nBlocks + 1)))
    (hord : ord.Perm (sentUpdates d)) (hr : 1 ≤ r) :
    condvarReps d bs r p q f = repLocal d p q f
    ∧ channelReps d ord r p q f = (r : ℤ) * repLocal d p q f := by
  constructor
  · obtain ⟨k, rfl⟩ : ∃ k, r = k + 1 := ⟨r - 1, by omega⟩
    show condvarPass d bs (resetT (condvarReps d bs k)) p q f = repLocal d p q f
    rw [show resetT (condvarReps d bs k) = zeroT from rfl]
    rw [condvarPass_entry d bs zeroT hbs, repLocal_entry]
    simp [zeroT]
  · rw [channelReps_entry d ord r hord, repLocal_entry]

/-- Witness for C6's theorem at `dEx1` with `r = 2`. -/
theorem repetition_reset_behaviour_holds :
    condvarReps dEx1 [0, 1] 2 0 0 0 = repLocal dEx1 0 0 0
    ∧ channelReps dEx1 (sentUpdates dEx1) 2 0 0 0 = (2 : ℤ) * repLocal dEx1 0 0 0 :=
  repetition_reset_behaviour dEx1 [0, 1] (sentUpdates dEx1) 2 0 0 0 (by decide)
    (List.Perm.refl _) (by decide)

/-- Counterexample to C6 as stated: in the channel-based variant two
repetitions do not end with identical accumulators — on `dEx1` the second
repetition ends with twice the first repetition's value. -/
theorem channel_reps_carry_over :
    channelReps dEx1 (sentUpdates dEx1) 2 0 0 0
      ≠ channelReps dEx1 (sentUpdates dEx1) 1 0 0 0 := by
  decide

/-- C7 (confirmed): `BlockSizes::new` is `None` exactly when the maximum
is below the minimum and otherwise `Some` of the pair, and
`BlockSizes::new_from_usize` is `None` exactly when either size is zero or
the maximum is below the minimum — an invalid range is rejected before any
computation begins. -/
theorem block_sizes_validation (minS maxS : ℕ) :
    (BlockSizes.new (minS, maxS) = none ↔ maxS < minS)
    ∧ (minS ≤ maxS → BlockSizes.new (minS, maxS) = some ⟨minS, maxS⟩)
    ∧ (BlockSizes.new_from_usize (minS, maxS) = none
        ↔ minS = 0 ∨ maxS = 0 ∨ maxS < minS) := by
  refine ⟨?_, fun h => ?_, ?_⟩
  · unfold BlockSizes.new
    by_cases h : maxS ≥ minS <;> simp [h] <;> omega
  · unfold BlockSizes.new
    simp [show maxS ≥ minS from h]
  · unfold BlockSizes.new_from_usize BlockSizes.new
    split_ifs with h1 h2 h3 <;> simp_all <;> omega

/-- C9 (confirmed): the inner pool of `benchmark.rs` is sized to a single
thread exactly for hardware concurrency 2 or fewer, and in that case the
`with_min_len` argument divides the half-sandwich's column count — the
feature count — by `ncpus_inner - 1 = 0`, so the program panics before
producing any accumulator. -/
theorem inner_min_len_divides_by_zero (ncpus : ℕ) (xp rs : RMatrix)
    (idxs : List ℕ) :
    (ncpusInnerOf ncpus = 1 ↔ ncpus ≤ 2)
    ∧ (ncpus ≤ 2 → innerMinLen xp rs idxs ncpus = none)
    ∧ (halfSandwich xp rs idxs).cols = rs.cols := by
  have hiff : ncpusInnerOf ncpus = 1 ↔ ncpus ≤ 2 := by
    unfold ncpusInnerOf ncpusOuterOf
    split_ifs
    · omega
    · omega
  refine ⟨hiff, fun h => ?_, rfl⟩
  unfold innerMinLen checkedDiv
  rw [hiff.mpr h]
  simp

lemma countMid_append (l₁ l₂ : List Phase) (x : Phase) :
    ((l₁ ++ x :: l₂).filter Phase.isMid).length
      = (l₁.filter Phase.isMid).length + (if Phase.isMid x then 1 else 0)
        + (l₂.filter Phase.isMid).length := by
  rw [List.filter_append, List.length_append, List.filter_cons]
  by_cases h : Phase.isMid x
  · simp [h]
    omega
  · simp [h]

lemma gate_invariant (ncpusOuter n : ℕ) (s : GateState)
    (h : GateReachable ncpusOuter n s) :
    s.outer_pool_reserved = liveHalfSandwiches s
    ∧ s.outer_pool_reserved ≤ ncpusOuter := by
  induction h with
  | init =>
    refine ⟨?_, Nat.zero_le _⟩
    show 0 = ((List.replicate n Phase.idle).filter Phase.isMid).length
    rw [List.filter_replicate]
    simp [Phase.isMid]
  | step _ hstep ih =>
    obtain ⟨ih1, ih2⟩ := ih
    cases hstep with
    | acquire r ib l₁ l₂ hgate =>
      have hold : r = (l₁.filter Phase.isMid).length + (l₂.filter Phase.isMid).length := by
        rw [show liveHalfSandwiches ⟨r, ib, l₁ ++ Phase.idle :: l₂⟩
            = ((l₁ ++ Phase.idle :: l₂).filter Phase.isMid).length from rfl,
          countMid_append] at ih1
        simpa [Phase.isMid] using ih1
      refine ⟨?_, ?_⟩
      · show r + 1 = ((l₁ ++ Phase.computing :: l₂).filter Phase.isMid).length
        rw [countMid_append]
        simp [Phase.isMid]
        omega
      · show r + 1 ≤ ncpusOuter
        omega
    | enterInner r l₁ l₂ =>
      have hold : r = (l₁.filter Phase.isMid).length + 1 + (l₂.filter Phase.isMid).length := by
        rw [show liveHalfSandwiches ⟨r, 0, l₁ ++ Phase.computing :: l₂⟩
            = ((l₁ ++ Phase.computing :: l₂).filter Phase.isMid).length from rfl,
          countMid_append] at ih1
        simpa [Phase.isMid] using ih1
      refine ⟨?_, ih2⟩
      show r = ((l₁ ++ Phase.accumulating :: l₂).filter Phase.isMid).length
      rw [countMid_append]
      simp [Phase.isMid]
      omega
    | finish r ib l₁ l₂ =>
      have hold : r = (l₁.filter Phase.isMid).length + 1 + (l₂.filter Phase.isMid).length := by
        rw [show liveHalfSandwiches ⟨r, ib, l₁ ++ Phase.accumulating :: l₂⟩
            = ((l₁ ++ Phase.accumulating :: l₂).filter Phase.isMid).length from rfl,
          countMid_append] at ih1
        simpa [Phase.isMid] using ih1
      refine ⟨?_, ?_⟩
      · show r - 1 = ((l₁ ++ Phase.finished :: l₂).filter Phase.isMid).length
        rw [countMid_append]
        simp [Phase.isMid]
        omega
      · have hle : r ≤ ncpusOuter := ih2
        show r - 1 ≤ ncpusOuter
        omega

/-- C8 (confirmed): in every reachable state of the gate protocol of
`benchmark-single.rs`, the number of tasks that are mid-computation — the
number of concurrently live half-sandwich matrices — never exceeds the
outer pool's thread count: the guarded acquire keeps
`outer_pool_reserved` equal to that number and below the bound, and only
the inner-pool task body releases the slot after accumulation. -/
theorem gate_bounds_live_half_sandwiches (ncpusOuter n : ℕ) (s : GateState)
    (h : GateReachable ncpusOuter n s) :
    liveHalfSandwiches s ≤ ncpusOuter := by
  have hinv := gate_invariant ncpusOuter n s h
  omega

/-- Witness for C8's theorem: with an outer pool of width 1 and two
blocks, the state after one task acquires the gate is reachable and holds
one live half-sandwich. -/
theorem gate_bounds_live_half_sandwiches_holds :
    liveHalfSandwiches ⟨1, 0, [Phase.computing, Phase.idle]⟩ ≤ 1 :=
  gate_bounds_live_half_sandwiches 1 2 _
    (GateReachable.step GateReachable.init
      (GateStep.acquire 0 0 [] [Phase.idle] (by decide)))

lemma fillRange_mem (l : List ℕ) (lo hi v x : ℕ)
    (hx : x ∈ fillRange l lo hi v) : x = v ∨ x ∈ l := by
  unfold fillRange at hx
  rw [List.mem_map] at hx
  obtain ⟨i, hiRange, hval⟩ := hx
  rw [List.mem_range] at hiRange
  by_cases hcond : lo ≤ i ∧ i < hi
  · left
    rw [if_pos hcond] at hval
    exact hval.symm
  · right
    rw [if_neg hcond] at hval
    rw [← hval, List.getD_eq_getElem l 0 hiRange]
    exact List.getElem_mem hiRange

lemma assignLoop_bid_le (sample : ℕ → ℕ) (nObs fuel : ℕ) :
    ∀ ids bid start k,
      bid ≤ (assignLoop sample nObs fuel ids bid start k).2 := by
  induction fuel with
  | zero => intro ids bid start k; exact Nat.le_refl bid
  | succ m ih =>
    intro ids bid start k
    show (if start + sample k ≤ nObs then _ else (ids, bid)).2 ≥ bid
    split_ifs with h
    · exact Nat.le_trans (Nat.le_succ bid) (ih _ _ _ _)
    · exact Nat.le_refl bid

lemma assignLoop_mem_le (sample : ℕ → ℕ) (nObs fuel : ℕ) :
    ∀ ids bid start k, (∀ x ∈ ids, x ≤ bid) →
      ∀ x ∈ (assignLoop sample nObs fuel ids bid start k).1,
        x ≤ (assignLoop sample nObs fuel ids bid start k).2 := by
  induction fuel with
  | zero => intro ids bid start k hids; exact hids
  | succ m ih =>
    intro ids bid start k hids
    show ∀ x ∈ (if start + sample k ≤ nObs then _ else (ids, bid)).1,
      x ≤ (if start + sample k ≤ nObs then _ else (ids, bid)).2
    split_ifs with h
    · refine ih _ _ _ _ ?_
      intro x hx
      rcases fillRange_mem ids start (start + sample k) (bid + 1) x hx with hv | hmem
      · omega
      · exact Nat.le_trans (hids x hmem) (Nat.le_succ bid)
    · exact hids

/-- C10 (confirmed): `MockData::from_params` panics — the embedding
returns `none` — exactly from `NonZeroUsize::new(0).unwrap()` whenever the
first sampled block size exceeds `n_obs` (in particular always when
`min_size > n_obs`, since every draw is at least `min_size`); otherwise it
returns data whose block count is at least 1 and whose shuffled block-id
vector contains only values in `0 ..= n_blocks`. -/
theorem mock_data_generation (sample perm : ℕ → ℕ) (nObs : ℕ) :
    (nObs < sample 0 → fromParams sample perm nObs = none)
    ∧ (sample 0 ≤ nObs →
        ∃ nb ids, fromParams sample perm nObs = some (nb, ids)
          ∧ 1 ≤ nb ∧ ∀ x ∈ ids, x ≤ nb)
    ∧ (∀ minS, nObs < minS → (∀ k, minS ≤ sample k) →
        fromParams sample perm nObs = none) := by
  have hfirst : ∀ h : ¬ (0 + sample 0 ≤ nObs),
      fromParams sample perm nObs = none := by
    intro h
    unfold fromParams
    show (if (assignLoop sample nObs (nObs + 1) (List.replicate nObs 0) 0 0 0).2 = 0
        then none else _) = none
    rw [show assignLoop sample nObs (nObs + 1) (List.replicate nObs 0) 0 0 0
        = (List.replicate nObs 0, 0) by
      show (if 0 + sample 0 ≤ nObs then _ else (List.replicate nObs 0, 0))
        = (List.replicate nObs 0, 0)
      rw [if_neg h]]
    rfl
  refine ⟨fun h => hfirst (by omega), fun h => ?_, fun minS h1 h2 => hfirst (by
    have := h2 0
    omega)⟩
  set r := assignLoop sample nObs (nObs + 1) (List.replicate nObs 0) 0 0 0 with hr
  have hbid : 1 ≤ r.2 := by
    rw [hr]
    show 1 ≤ (assignLoop sample nObs (nObs + 1) (List.replicate nObs 0) 0 0 0).2
    rw [show assignLoop sample nObs (nObs + 1) (List.replicate nObs 0) 0 0 0
        = assignLoop sample nObs nObs
            (fillRange (List.replicate nObs 0) 0 (0 + sample 0) 1) 1
            (0 + sample 0) 1 by
      show (if 0 + sample 0 ≤ nObs then _ else (List.replicate nObs 0, 0)) = _
      rw [if_pos (by omega)]]
    exact assignLoop_bid_le sample nObs nObs _ 1 _ _
  have hmem : ∀ x ∈ r.1, x ≤ r.2 := by
    rw [hr]
    apply assignLoop_mem_le
    intro x hx
    rw [List.eq_of_mem_replicate hx]
  refine ⟨r.2, (List.range nObs).map (fun i => r.1.getD (perm i) 0), ?_, hbid, ?_⟩
  · unfold fromParams
    rw [← hr, if_neg (by omega)]
  · intro x hx
    rw [List.mem_map] at hx
    obtain ⟨i, _, hval⟩ := hx
    rw [← hval]
    by_cases hlt : perm i < r.1.length
    · rw [List.getD_eq_getElem r.1 0 hlt]
      exact hmem _ (List.getElem_mem hlt)
    · rw [List.getD_eq_default r.1 0 (by omega)]
      exact Nat.zero_le _

end SweMockup
